import Mathlib

/-!
Verification of the deliveries core of `AiIntro_HW1`
(`src/deliveries/relaxed_deliveries_problem.py` and
`src/deliveries/deliveries_heuristics.py`).

Modelling choices:
* Junctions (the external geometry primitive) are an abstract type `P` with
  decidable equality; the external air-distance function
  `Junction.calc_air_distance_from` is passed as a parameter `dist : P → P → ℚ`.
* Python floats are embedded as rationals.
* Python `frozenset` is embedded as `Finset`.
* Python `assert` failures are embedded as the `.error` branch of `Except`.
-/

set_option maxHeartbeats 1000000

namespace AiIntroHW1

/-- Python `int(x)` conversion of a rational: truncation toward zero. -/
def ratTruncToInt (q : ℚ) : ℤ := Int.tdiv q.num (q.den : ℤ)

/-- `RelaxedDeliveriesState.fuel_as_int`: `int(self.fuel * 1000000)`. -/
def fuelAsInt (fuel : ℚ) : ℤ := ratTruncToInt (fuel * 1000000)

/-- The fields of a `RelaxedDeliveriesState` (set in `__init__` before the
`assert fuel > 0` check). -/
structure RelaxedDeliveriesState (P : Type) where
  current_location : P
  dropped_so_far : Finset P
  fuel : ℚ
deriving DecidableEq

variable {P : Type} [DecidableEq P]

/-- `RelaxedDeliveriesState.__init__`: stores the fields and then runs
`assert fuel > 0`; a failing assert aborts construction. -/
def mkRelaxedDeliveriesState (current_location : P) (dropped_so_far : Finset P)
    (fuel : ℚ) : Except String (RelaxedDeliveriesState P) :=
  if 0 < fuel then .ok ⟨current_location, dropped_so_far, fuel⟩
  else .error "InvalidStateError"

/-- `RelaxedDeliveriesState.__eq__`: compares location, drop-set, and the
`fuel_as_int` buckets (never the raw fuel values). -/
def stateEq (s₁ s₂ : RelaxedDeliveriesState P) : Bool :=
  decide (s₁.current_location = s₂.current_location) &&
  decide (s₁.dropped_so_far = s₂.dropped_so_far) &&
  decide (fuelAsInt s₁.fuel = fuelAsInt s₂.fuel)

/-- `RelaxedDeliveriesState.__hash__` hashes the tuple
`(current_location, dropped_so_far, fuel_as_int)`; the Python hash is a
deterministic function of exactly this key, so two states hash equal whenever
their keys are equal. -/
def stateHashKey (s : RelaxedDeliveriesState P) : P × Finset P × ℤ :=
  (s.current_location, s.dropped_so_far, fuelAsInt s.fuel)

/-- The problem-input value object (`DeliveriesProblemInput`, supplied by the
input-parsing collaborator; fields per the spec's external-interface list). -/
structure DeliveriesProblemInput (P : Type) where
  input_name : String
  start_point : P
  drop_points : Finset P
  gas_stations : Finset P
  gas_tank_capacity : ℚ
  gas_tank_init_fuel : ℚ

/-- The fields of a `RelaxedDeliveriesProblem` as set by its `__init__`. -/
structure RelaxedDeliveriesProblem (P : Type) where
  start_point : P
  drop_points : Finset P
  gas_stations : Finset P
  gas_tank_capacity : ℚ
  initial_state : RelaxedDeliveriesState P

/-- `RelaxedDeliveriesProblem.possible_stop_points = drop_points | gas_stations`. -/
def RelaxedDeliveriesProblem.possible_stop_points
    (prob : RelaxedDeliveriesProblem P) : Finset P :=
  prob.drop_points ∪ prob.gas_stations

/-- `RelaxedDeliveriesProblem.__init__`: asserts the start point is not a drop
point, then builds the initial state (whose constructor asserts positive
initial fuel). -/
def mkRelaxedDeliveriesProblem (inp : DeliveriesProblemInput P) :
    Except String (RelaxedDeliveriesProblem P) :=
  if inp.start_point ∈ inp.drop_points then .error "AssertionError"
  else
    (mkRelaxedDeliveriesState inp.start_point ∅ inp.gas_tank_init_fuel).map
      (fun s₀ =>
        ⟨inp.start_point, inp.drop_points, inp.gas_stations,
          inp.gas_tank_capacity, s₀⟩)

/-- Outcome of one iteration of the loop body of
`RelaxedDeliveriesProblem.expand_state_with_costs` for one candidate stop
point: the candidate is skipped by a `continue`, a successor/cost pair is
yielded, or the successor constructor's `assert fuel > 0` fails. -/
inductive CandidateResult (P : Type) where
  | skip
  | emit (s : RelaxedDeliveriesState P) (cost : ℚ)
  | fail
deriving DecidableEq

/-- The loop body of `RelaxedDeliveriesProblem.expand_state_with_costs` for a
single candidate stop point `q`. -/
def expandCandidate (dist : P → P → ℚ) (prob : RelaxedDeliveriesProblem P)
    (s : RelaxedDeliveriesState P) (q : P) : CandidateResult P :=
  if q = s.current_location then .skip
  else if q ∈ s.dropped_so_far then .skip
  else if s.fuel - dist s.current_location q < 0 then .skip
  else if q ∈ prob.drop_points then
    match mkRelaxedDeliveriesState q (insert q s.dropped_so_far)
        (s.fuel - dist s.current_location q) with
    | .ok st => .emit st (dist s.current_location q)
    | .error _ => .fail
  else
    match mkRelaxedDeliveriesState q s.dropped_so_far
        prob.gas_tank_capacity with
    | .ok st => .emit st (dist s.current_location q)
    | .error _ => .fail

/-- `RelaxedDeliveriesProblem.expand_state_with_costs`, run to completion over
an enumeration `order` of `possible_stop_points` (the Python `frozenset`
iteration order is unspecified, so the enumeration is a parameter): the
yielded successor/cost pairs in order, or the assertion error if a successor
constructor fails. -/
def expandStateWithCosts (dist : P → P → ℚ) (prob : RelaxedDeliveriesProblem P)
    (s : RelaxedDeliveriesState P) :
    List P → Except String (List (RelaxedDeliveriesState P × ℚ))
  | [] => .ok []
  | q :: rest =>
    match expandCandidate dist prob s q with
    | .skip => expandStateWithCosts dist prob s rest
    | .fail => .error "AssertionError"
    | .emit st c =>
      (expandStateWithCosts dist prob s rest).map (fun l => (st, c) :: l)

/-- `RelaxedDeliveriesProblem.is_goal`: set equality of `dropped_so_far` with
the problem's `drop_points`. -/
def RelaxedDeliveriesProblem.is_goal (prob : RelaxedDeliveriesProblem P)
    (s : RelaxedDeliveriesState P) : Bool :=
  decide (s.dropped_so_far = prob.drop_points)

/-! ### The pairwise-distance cache of `MSTAirDistHeuristic`

`_junctions_distances_cache` is a Python dict keyed by
`frozenset({junction1, junction2})`; it is embedded as an association list
keyed by the `Finset` of the two junctions. -/

/-- Dict lookup by unordered pair key. -/
def lookupPair : List (Finset P × ℚ) → Finset P → Option ℚ
  | [], _ => none
  | (k, v) :: rest, key => if k = key then some v else lookupPair rest key

/-- `MSTAirDistHeuristic._get_distance_between_junctions`: look the unordered
pair up in the cache; on a miss compute the air distance, store it under the
pair key, and return it.  Returns the distance and the updated cache. -/
def getDistanceBetweenJunctions (dist : P → P → ℚ)
    (cache : List (Finset P × ℚ)) (junction1 junction2 : P) :
    ℚ × List (Finset P × ℚ) :=
  match lookupPair cache {junction1, junction2} with
  | some d => (d, cache)
  | none =>
    (dist junction1 junction2,
      ({junction1, junction2}, dist junction1 junction2) :: cache)

/-- A sequence of `_get_distance_between_junctions` calls on one heuristic
instance, threading its cache; returns the results and the final cache. -/
def runCacheQueries (dist : P → P → ℚ) :
    List (P × P) → List (Finset P × ℚ) → List ℚ × List (Finset P × ℚ)
  | [], cache => ([], cache)
  | (p, q) :: rest, cache =>
    ((getDistanceBetweenJunctions dist cache p q).1 ::
        (runCacheQueries dist rest
          (getDistanceBetweenJunctions dist cache p q).2).1,
      (runCacheQueries dist rest
        (getDistanceBetweenJunctions dist cache p q).2).2)

/-! ### MaxAirDistHeuristic -/

/-- `MaxAirDistHeuristic.estimate`: starting from `max_air_dist = 0.0`, take
the larger of the running maximum and the air distance from each
still-waiting drop point to the state's location. -/
def maxAirDistEstimate (dist : P → P → ℚ) (prob : RelaxedDeliveriesProblem P)
    (s : RelaxedDeliveriesState P) : ℚ :=
  Finset.fold max 0 (fun drop_point => dist drop_point s.current_location)
    (prob.drop_points \ s.dropped_so_far)

/-! ### MST weight over a point set

`MSTAirDistHeuristic._calculate_junctions_air_dist_mst_weight` builds the
dense symmetric distance matrix over the point set and hands it to the
external `scipy.sparse.csgraph.minimum_spanning_tree`, summing the tree's
edge weights. -/

/-- One round of neighbour closure along the edges of `E`. -/
def stepSet (E : Finset (P × P)) (R : Finset P) : Finset P :=
  R ∪ E.biUnion (fun e => if e.1 ∈ R ∨ e.2 ∈ R then {e.1, e.2} else ∅)

/-- The vertices reachable from `a` along edges of `E` (read as undirected)
in at most `n` steps. -/
def reachSet (E : Finset (P × P)) (a : P) : ℕ → Finset P
  | 0 => {a}
  | n + 1 => stepSet E (reachSet E a n)

/-- The edge set `E` (pairs read as undirected edges) connects the vertex set
`S`: every vertex of `S` is reachable from every vertex of `S`.  `S.card`
closure rounds always suffice (see `connects_iff_reachable`), so this bounded
formulation is decidable and agrees with graph-theoretic connectivity. -/
def connects (E : Finset (P × P)) (S : Finset P) : Prop :=
  ∀ a ∈ S, ∀ b ∈ S, b ∈ reachSet E a S.card

instance (E : Finset (P × P)) (S : Finset P) : Decidable (connects E S) := by
  unfold connects; infer_instance

/-- The spanning-tree edge sets over `S`: sets of ordered pairs of distinct
vertices of `S` with `|S| - 1` edges that connect `S`. -/
def spanningEdgeSets (S : Finset P) : Finset (Finset (P × P)) :=
  S.offDiag.powerset.filter (fun E => E.card + 1 = S.card ∧ connects E S)

/-- The total weight of an edge set under the distance function. -/
def edgesWeight (dist : P → P → ℚ) (E : Finset (P × P)) : ℚ :=
  Finset.sum E (fun e => dist e.1 e.2)

/-- Modelled from the spec: the external
`scipy.sparse.csgraph.minimum_spanning_tree` call, per the spec's words
"Compute the weight of a minimum spanning tree over the complete graph
induced by this matrix; return the sum of tree edge weights" — the least
total weight over all spanning trees of the complete graph on `S` (`0` when
`S` has at most one vertex, where the spanning tree has no edges). -/
def mstWeight (dist : P → P → ℚ) (S : Finset P) : ℚ :=
  WithTop.untop' 0 ((spanningEdgeSets S).image (edgesWeight dist)).min

/-- `MSTAirDistHeuristic.estimate`: the MST weight over the still-waiting
drop points together with the state's current location. -/
def mstAirDistEstimate (dist : P → P → ℚ) (prob : RelaxedDeliveriesProblem P)
    (s : RelaxedDeliveriesState P) : ℚ :=
  mstWeight dist
    (insert s.current_location (prob.drop_points \ s.dropped_so_far))

/-- The undirected simple graph induced by an edge set (used to relate
`connects` to graph-theoretic reachability). -/
def edgeGraph (E : Finset (P × P)) : SimpleGraph P :=
  SimpleGraph.fromRel (fun x y => (x, y) ∈ E)

/-- The weight of an undirected edge: the symmetrised distance of its two
endpoints (equal to `dist` itself once `dist` is symmetric). -/
def sym2Weight (dist : P → P → ℚ) : Sym2 P → ℚ :=
  Sym2.lift ⟨fun x y => (dist x y + dist y x) / 2,
    fun x y => by simp only []; rw [add_comm]⟩

/-- A concrete symmetric distance on `ℕ` (absolute difference), used by the
witness and counterexample theorems. -/
def natDist (a b : ℕ) : ℚ := ((max a b - min a b : ℕ) : ℚ)

/-! ### The relaxed-sub-problem heuristic (`RelaxedDeliveriesHeuristic`) -/

/-- Modelled from the spec: the state of the strict deliveries problem
(`strict_deliveries_problem.py` is not among the given sources).  Per the
spec, `RelaxedDeliveriesHeuristic.estimate` reads its `current_location`,
`dropped_so_far` and `fuel` fields, which mirror the relaxed state's. -/
structure StrictDeliveriesState (P : Type) where
  current_location : P
  dropped_so_far : Finset P
  fuel : ℚ

/-- Modelled from the spec: the fields of the strict deliveries problem read
by `RelaxedDeliveriesHeuristic.estimate` (`strict_deliveries_problem.py` is
not among the given sources). -/
structure StrictDeliveriesProblem (P : Type) where
  start_point : P
  drop_points : Finset P
  gas_stations : Finset P
  gas_tank_capacity : ℚ

/-- The value returned by a heuristic `estimate`: a finite cost or `np.inf`. -/
inductive HeuristicValue where
  | finite (cost : ℚ)
  | infinity
deriving DecidableEq

/-- `RelaxedDeliveriesHeuristic.estimate`: builds the relaxed sub-problem
input mirroring the strict state (start at `current_location`, the drop
points not yet dropped, the same gas stations, capacity, and the state's fuel
as initial fuel), constructs the `RelaxedDeliveriesProblem` (whose `__init__`
asserts), and hands it to the external A* solver — abstracted as
`solver : RelaxedDeliveriesProblem P → Option ℚ`, returning the reported
total path cost of the final search node or `none` when the solver reports no
solution.  Returns `np.inf` when the solver result is `none`, else the cost. -/
def relaxedDeliveriesHeuristicEstimate
    (solver : RelaxedDeliveriesProblem P → Option ℚ)
    (prob : StrictDeliveriesProblem P) (s : StrictDeliveriesState P) :
    Except String HeuristicValue :=
  (mkRelaxedDeliveriesProblem
    ⟨"DeliveriesProblemInput", s.current_location,
      prob.drop_points \ s.dropped_so_far, prob.gas_stations,
      prob.gas_tank_capacity, s.fuel⟩).map (fun sub_problem =>
    match solver sub_problem with
    | none => .infinity
    | some cost => .finite cost)

/-! ### Helper lemmas -/

/-- For a nonnegative rational, Python `int()` truncation agrees with the
floor. -/
theorem ratTruncToInt_eq_floor {q : ℚ} (hq : 0 ≤ q) : ratTruncToInt q = ⌊q⌋ := by
  unfold ratTruncToInt
  rw [Int.tdiv_eq_ediv (Rat.num_nonneg.mpr hq) (Int.ofNat_nonneg q.den),
    Rat.floor_def]

theorem fuelAsInt_eq_floor {fuel : ℚ} (h : 0 ≤ fuel) :
    fuelAsInt fuel = ⌊fuel * 1000000⌋ :=
  ratTruncToInt_eq_floor (by positivity)

theorem floor_ne_of_one_lt_sub {x y : ℚ} (h : x + 1 < y) : ⌊x⌋ ≠ ⌊y⌋ := by
  have h1 : ⌊x⌋ + 1 ≤ ⌊y⌋ := by
    rw [Int.le_floor]
    push_cast
    calc ((⌊x⌋ : ℚ) + 1) ≤ x + 1 := by
          have := Int.floor_le x; linarith
      _ ≤ y := le_of_lt h
  omega

/-! ### C1 -/

/-- C1 (counterexample): two states at the same location with the same
drop-set whose fuel values differ by less than 1/1,000,000 but fall into
different resolution buckets compare unequal under
`RelaxedDeliveriesState.__eq__`. -/
theorem stateEq_counterexample_close_fuels_unequal :
    |((1999999 : ℚ) / 2000000) - 1| < 1 / 1000000 ∧
    (0 : ℚ) < 1999999 / 2000000 ∧
    stateEq (P := ℕ) ⟨0, ∅, 1999999 / 2000000⟩ ⟨0, ∅, 1⟩ = false := by
  refine ⟨by rw [abs_sub_lt_iff]; norm_num, by norm_num, ?_⟩
  have h₁ : fuelAsInt ((1999999 : ℚ) / 2000000) = 999999 := by
    rw [fuelAsInt_eq_floor (by norm_num)]
    norm_num [Int.floor_eq_iff]
  have h₂ : fuelAsInt (1 : ℚ) = 1000000 := by
    rw [fuelAsInt_eq_floor (by norm_num)]
    norm_num
  simp [stateEq, h₁, h₂]

/-- C1 (amended): for two states built with the same `current_location` and
the same `dropped_so_far` set, `__eq__` returns true exactly when the two
fuel values fall in the same resolution bucket (`fuel_as_int`, the fuel times
1,000,000 truncated to an integer); equal states have equal hash keys, so
`__hash__` agrees; and (for the positive fuels the state invariant
guarantees) fuel values differing by more than 1/1,000,000 always land in
different buckets, so such states compare unequal. -/
theorem stateEq_bucket_law (s₁ s₂ : RelaxedDeliveriesState P)
    (hloc : s₁.current_location = s₂.current_location)
    (hdrop : s₁.dropped_so_far = s₂.dropped_so_far) :
    (stateEq s₁ s₂ = true ↔ fuelAsInt s₁.fuel = fuelAsInt s₂.fuel) ∧
    (stateEq s₁ s₂ = true → stateHashKey s₁ = stateHashKey s₂) ∧
    (0 < s₁.fuel → 0 < s₂.fuel → 1 / 1000000 < |s₁.fuel - s₂.fuel| →
      stateEq s₁ s₂ = false) := by
  have hiff : stateEq s₁ s₂ = true ↔ fuelAsInt s₁.fuel = fuelAsInt s₂.fuel := by
    simp [stateEq, hloc, hdrop]
  refine ⟨hiff, ?_, ?_⟩
  · intro h
    have := hiff.mp h
    simp [stateHashKey, hloc, hdrop, this]
  · intro h₁ h₂ habs
    have hne : ¬ (fuelAsInt s₁.fuel = fuelAsInt s₂.fuel) := by
      rw [fuelAsInt_eq_floor (le_of_lt h₁), fuelAsInt_eq_floor (le_of_lt h₂)]
      rcases lt_abs.mp habs with h | h
      · exact Ne.symm (floor_ne_of_one_lt_sub (by linarith))
      · exact floor_ne_of_one_lt_sub (by linarith)
    cases hb : stateEq s₁ s₂
    · rfl
    · exact absurd (hiff.mp hb) hne

/-- Witness for `stateEq_bucket_law` at a concrete pair of states. -/
theorem stateEq_bucket_law_witness :
    (stateEq (P := ℕ) ⟨7, {1}, 1⟩ ⟨7, {1}, 3⟩ = true ↔
      fuelAsInt (1 : ℚ) = fuelAsInt (3 : ℚ)) ∧
    (stateEq (P := ℕ) ⟨7, {1}, 1⟩ ⟨7, {1}, 3⟩ = true →
      stateHashKey (P := ℕ) ⟨7, {1}, 1⟩ = stateHashKey (P := ℕ) ⟨7, {1}, 3⟩) ∧
    ((0 : ℚ) < 1 → (0 : ℚ) < 3 → 1 / 1000000 < |(1 : ℚ) - 3| →
      stateEq (P := ℕ) ⟨7, {1}, 1⟩ ⟨7, {1}, 3⟩ = false) :=
  stateEq_bucket_law ⟨7, {1}, 1⟩ ⟨7, {1}, 3⟩ rfl rfl

/-! ### C6 -/

/-- C6: construction of a `RelaxedDeliveriesState` fails with the
`InvalidStateError` contract violation exactly when `fuel ≤ 0`, and succeeds
(returning the state with exactly the given fields) exactly when `0 < fuel`;
a non-positive fuel is never silently coerced. -/
theorem mkState_error_iff_nonpos_fuel (loc : P) (dropped : Finset P) (fuel : ℚ) :
    (mkRelaxedDeliveriesState loc dropped fuel = .error "InvalidStateError" ↔
      fuel ≤ 0) ∧
    (mkRelaxedDeliveriesState loc dropped fuel = .ok ⟨loc, dropped, fuel⟩ ↔
      0 < fuel) := by
  unfold mkRelaxedDeliveriesState
  by_cases h : 0 < fuel
  · simp [h, not_le.mpr h]
  · simp [h, not_lt.mp h]

/-! ### C8 -/

/-- C8: `is_goal` holds exactly when `dropped_so_far` equals the problem's
full drop-point set, and its value is independent of the state's fuel and
current location. -/
theorem isGoal_iff_all_dropped (prob : RelaxedDeliveriesProblem P)
    (loc : P) (dropped : Finset P) (fuel : ℚ) :
    (prob.is_goal ⟨loc, dropped, fuel⟩ = true ↔ dropped = prob.drop_points) ∧
    (∀ loc' fuel', prob.is_goal ⟨loc', dropped, fuel'⟩ =
      prob.is_goal ⟨loc, dropped, fuel⟩) := by
  simp [RelaxedDeliveriesProblem.is_goal]

/-! ### Expansion helper lemmas -/

/-- A candidate whose loop body yields is reproduced in the output of a
completed iteration of `expand_state_with_costs` containing it. -/
theorem mem_expand_of_emit {dist : P → P → ℚ}
    {prob : RelaxedDeliveriesProblem P} {s : RelaxedDeliveriesState P}
    {q : P} {st : RelaxedDeliveriesState P} {c : ℚ} {order : List P}
    {l : List (RelaxedDeliveriesState P × ℚ)}
    (horder : q ∈ order)
    (hok : expandStateWithCosts dist prob s order = .ok l)
    (hemit : expandCandidate dist prob s q = .emit st c) :
    (st, c) ∈ l := by
  induction order generalizing l with
  | nil => cases horder
  | cons q' rest ih =>
    rw [List.mem_cons] at horder
    unfold expandStateWithCosts at hok
    rcases horder with rfl | hq
    · rw [hemit] at hok
      cases hrest : expandStateWithCosts dist prob s rest with
      | error e => rw [hrest] at hok; cases hok
      | ok l' =>
        rw [hrest] at hok
        cases hok
        exact List.mem_cons_self _ _
    · cases hcand : expandCandidate dist prob s q' with
      | skip => rw [hcand] at hok; exact ih hq hok
      | fail => rw [hcand] at hok; cases hok
      | emit st' c' =>
        rw [hcand] at hok
        cases hrest : expandStateWithCosts dist prob s rest with
        | error e => rw [hrest] at hok; cases hok
        | ok l' =>
          rw [hrest] at hok
          cases hok
          exact List.mem_cons_of_mem _ (ih hq hrest)

/-- Every pair in the output of a completed `expand_state_with_costs`
iteration was yielded by some candidate's loop body. -/
theorem emit_of_mem_expand {dist : P → P → ℚ}
    {prob : RelaxedDeliveriesProblem P} {s : RelaxedDeliveriesState P}
    {st : RelaxedDeliveriesState P} {c : ℚ} {order : List P}
    {l : List (RelaxedDeliveriesState P × ℚ)}
    (hok : expandStateWithCosts dist prob s order = .ok l)
    (hmem : (st, c) ∈ l) :
    ∃ q ∈ order, expandCandidate dist prob s q = .emit st c := by
  induction order generalizing l with
  | nil =>
    unfold expandStateWithCosts at hok
    cases hok
    cases hmem
  | cons q' rest ih =>
    unfold expandStateWithCosts at hok
    cases hcand : expandCandidate dist prob s q' with
    | skip =>
      rw [hcand] at hok
      obtain ⟨q, hq, h⟩ := ih hok hmem
      exact ⟨q, List.mem_cons_of_mem _ hq, h⟩
    | fail => rw [hcand] at hok; cases hok
    | emit st' c' =>
      rw [hcand] at hok
      cases hrest : expandStateWithCosts dist prob s rest with
      | error e => rw [hrest] at hok; cases hok
      | ok l' =>
        rw [hrest] at hok
        cases hok
        rcases List.mem_cons.mp hmem with h | h
        · cases h
          exact ⟨q', List.mem_cons_self _ _, hcand⟩
        · obtain ⟨q, hq, hh⟩ := ih hrest h
          exact ⟨q, List.mem_cons_of_mem _ hq, hh⟩

/-- An emitted successor always comes out of a successful
`RelaxedDeliveriesState` construction, so its fuel is positive. -/
theorem emit_fuel_pos {dist : P → P → ℚ}
    {prob : RelaxedDeliveriesProblem P} {s : RelaxedDeliveriesState P}
    {q : P} {st : RelaxedDeliveriesState P} {c : ℚ}
    (h : expandCandidate dist prob s q = .emit st c) : 0 < st.fuel := by
  unfold expandCandidate at h
  split at h
  · cases h
  split at h
  · cases h
  split at h
  · cases h
  split at h
  · split at h
    · rename_i st' hmk
      cases h
      unfold mkRelaxedDeliveriesState at hmk
      split at hmk
      · cases hmk; assumption
      · cases hmk
    · cases h
  · split at h
    · rename_i st' hmk
      cases h
      unfold mkRelaxedDeliveriesState at hmk
      split at hmk
      · cases hmk; assumption
      · cases hmk
    · cases h

/-! ### C4 -/

/-- C4 (counterexample): a reachable candidate drop point `q` whose air
distance equals the state's fuel exactly (candidate fuel `0`, which the
`< 0` skip guard lets through) does not produce an emitted successor: the
successor constructor's assertion fails instead. -/
theorem expand_counterexample_exact_fuel_drop :
    ((1 : ℕ) ∈ (⟨0, {1}, ∅, 5, ⟨0, ∅, 1⟩⟩ :
        RelaxedDeliveriesProblem ℕ).possible_stop_points) ∧
    (1 : ℕ) ≠ 0 ∧ (1 : ℕ) ∉ (∅ : Finset ℕ) ∧ natDist 0 1 ≤ (1 : ℚ) ∧
    expandCandidate natDist (⟨0, {1}, ∅, 5, ⟨0, ∅, 1⟩⟩ :
        RelaxedDeliveriesProblem ℕ) ⟨0, ∅, 1⟩ 1 = .fail ∧
    expandStateWithCosts natDist (⟨0, {1}, ∅, 5, ⟨0, ∅, 1⟩⟩ :
        RelaxedDeliveriesProblem ℕ) ⟨0, ∅, 1⟩ [1] = .error "AssertionError" := by
  have hfail : expandCandidate natDist (⟨0, {1}, ∅, 5, ⟨0, ∅, 1⟩⟩ :
      RelaxedDeliveriesProblem ℕ) ⟨0, ∅, 1⟩ 1 = .fail := by
    unfold expandCandidate mkRelaxedDeliveriesState
    norm_num [natDist]
  refine ⟨by decide, by decide, by decide, by norm_num [natDist], hfail, ?_⟩
  unfold expandStateWithCosts
  rw [hfail]

/-- C4 (amended): for every reachable candidate stop point `q` (distinct from
the current location, not yet dropped, with air distance at most the fuel and
— as the successor constructor's assertion forces — strictly less than the
fuel when `q` is a drop point), assuming the positive tank capacity the data
model guarantees, the loop body emits a successor at `q` with edge cost the
air distance: a drop point gets `q` added to `dropped_so_far` and the
candidate fuel; a gas station keeps `dropped_so_far` and gets fuel exactly
`gas_tank_capacity`; and a completed expansion containing `q` lists that
successor. -/
theorem expand_emits_reachable_successor (dist : P → P → ℚ)
    (prob : RelaxedDeliveriesProblem P) (s : RelaxedDeliveriesState P) (q : P)
    (hq : q ∈ prob.possible_stop_points)
    (hne : q ≠ s.current_location) (hnd : q ∉ s.dropped_so_far)
    (hcap : 0 < prob.gas_tank_capacity)
    (hreach : dist s.current_location q ≤ s.fuel)
    (hstrict : q ∈ prob.drop_points → dist s.current_location q < s.fuel) :
    (q ∈ prob.drop_points →
      expandCandidate dist prob s q =
        .emit ⟨q, insert q s.dropped_so_far,
            s.fuel - dist s.current_location q⟩
          (dist s.current_location q)) ∧
    (q ∉ prob.drop_points →
      expandCandidate dist prob s q =
        .emit ⟨q, s.dropped_so_far, prob.gas_tank_capacity⟩
          (dist s.current_location q)) ∧
    (∀ order l, q ∈ order →
      expandStateWithCosts dist prob s order = .ok l →
      ∃ st c, (st, c) ∈ l ∧ expandCandidate dist prob s q = .emit st c) := by
  have hguard : ¬ (s.fuel - dist s.current_location q < 0) := by
    rw [not_lt]; linarith
  have hdropEmit : q ∈ prob.drop_points →
      expandCandidate dist prob s q =
        .emit ⟨q, insert q s.dropped_so_far,
            s.fuel - dist s.current_location q⟩
          (dist s.current_location q) := by
    intro hdp
    have hpos : 0 < s.fuel - dist s.current_location q := by
      have := hstrict hdp; linarith
    unfold expandCandidate
    rw [if_neg hne, if_neg hnd, if_neg hguard, if_pos hdp]
    unfold mkRelaxedDeliveriesState
    rw [if_pos hpos]
  have hgasEmit : q ∉ prob.drop_points →
      expandCandidate dist prob s q =
        .emit ⟨q, s.dropped_so_far, prob.gas_tank_capacity⟩
          (dist s.current_location q) := by
    intro hdp
    unfold expandCandidate
    rw [if_neg hne, if_neg hnd, if_neg hguard, if_neg hdp]
    unfold mkRelaxedDeliveriesState
    rw [if_pos hcap]
  refine ⟨hdropEmit, hgasEmit, ?_⟩
  intro order l horder hok
  by_cases hdp : q ∈ prob.drop_points
  · exact ⟨_, _, mem_expand_of_emit horder hok (hdropEmit hdp), hdropEmit hdp⟩
  · exact ⟨_, _, mem_expand_of_emit horder hok (hgasEmit hdp), hgasEmit hdp⟩

/-- Witness for `expand_emits_reachable_successor` at a concrete instance. -/
theorem expand_emits_reachable_successor_witness :
    expandCandidate natDist (⟨0, {2}, {3}, 5, ⟨0, ∅, 4⟩⟩ :
        RelaxedDeliveriesProblem ℕ) ⟨0, ∅, 4⟩ 2 =
      .emit ⟨2, insert 2 (∅ : Finset ℕ), (4 : ℚ) - natDist 0 2⟩
        (natDist 0 2) :=
  (expand_emits_reachable_successor natDist
    (⟨0, {2}, {3}, 5, ⟨0, ∅, 4⟩⟩ : RelaxedDeliveriesProblem ℕ)
    ⟨0, ∅, 4⟩ 2 (by decide) (by decide) (by decide) (by decide) (by decide)
    (by decide)).1 (by decide)

/-! ### C5 -/

/-- C5: a candidate whose candidate fuel (the state's fuel minus the air
distance to it) is below zero is skipped with no emitted edge, and every
emitted successor — at the loop-body level and in any completed expansion —
has nonnegative fuel. -/
theorem expand_never_negative_fuel (dist : P → P → ℚ)
    (prob : RelaxedDeliveriesProblem P) (s : RelaxedDeliveriesState P)
    (q : P) :
    (s.fuel - dist s.current_location q < 0 →
      expandCandidate dist prob s q = .skip) ∧
    (∀ st c, expandCandidate dist prob s q = .emit st c → 0 ≤ st.fuel) ∧
    (∀ order l, expandStateWithCosts dist prob s order = .ok l →
      ∀ p ∈ l, 0 ≤ p.1.fuel) := by
  refine ⟨?_, ?_, ?_⟩
  · intro hneg
    unfold expandCandidate
    by_cases h1 : q = s.current_location
    · rw [if_pos h1]
    rw [if_neg h1]
    by_cases h2 : q ∈ s.dropped_so_far
    · rw [if_pos h2]
    rw [if_neg h2, if_pos hneg]
  · intro st c h
    exact le_of_lt (emit_fuel_pos h)
  · intro order l hok p hp
    rcases p with ⟨st, c⟩
    obtain ⟨q', _, hemit⟩ := emit_of_mem_expand hok hp
    exact le_of_lt (emit_fuel_pos hemit)

/-- Witness for `expand_never_negative_fuel` at a concrete instance. -/
theorem expand_never_negative_fuel_witness :
    expandCandidate natDist (⟨0, {2}, {3}, 5, ⟨0, ∅, 4⟩⟩ :
        RelaxedDeliveriesProblem ℕ) ⟨0, ∅, 4⟩ 9 = .skip ∧
    (0 : ℚ) ≤ (⟨2, {2}, (2 : ℚ)⟩ : RelaxedDeliveriesState ℕ).fuel :=
  ⟨(expand_never_negative_fuel natDist
      (⟨0, {2}, {3}, 5, ⟨0, ∅, 4⟩⟩ : RelaxedDeliveriesProblem ℕ)
      ⟨0, ∅, 4⟩ 9).1 (by norm_num [natDist]),
   (expand_never_negative_fuel natDist
      (⟨0, {2}, {3}, 5, ⟨0, ∅, 4⟩⟩ : RelaxedDeliveriesProblem ℕ)
      ⟨0, ∅, 4⟩ 2).2.1 ⟨2, {2}, 2⟩ 2
     (by unfold expandCandidate mkRelaxedDeliveriesState
         norm_num [natDist])⟩

/-! ### C9 -/

/-- C9: a point lying in both `drop_points` and `gas_stations` (the union
`possible_stop_points` allows overlap) is treated as a drop-point stop when a
successor is emitted at it: the point is added to `dropped_so_far` and the
successor's fuel is the candidate fuel, not a refuel to capacity. -/
theorem expand_overlap_treated_as_drop (dist : P → P → ℚ)
    (prob : RelaxedDeliveriesProblem P) (s : RelaxedDeliveriesState P)
    (q : P) (hdrop : q ∈ prob.drop_points) (hgas : q ∈ prob.gas_stations) :
    q ∈ prob.possible_stop_points ∧
    ∀ st c, expandCandidate dist prob s q = .emit st c →
      st.current_location = q ∧
      st.dropped_so_far = insert q s.dropped_so_far ∧
      st.fuel = s.fuel - dist s.current_location q ∧
      c = dist s.current_location q := by
  refine ⟨Finset.mem_union_left _ hdrop, ?_⟩
  intro st c h
  unfold expandCandidate at h
  by_cases h1 : q = s.current_location
  · rw [if_pos h1] at h; cases h
  rw [if_neg h1] at h
  by_cases h2 : q ∈ s.dropped_so_far
  · rw [if_pos h2] at h; cases h
  rw [if_neg h2] at h
  by_cases h3 : s.fuel - dist s.current_location q < 0
  · rw [if_pos h3] at h; cases h
  rw [if_neg h3, if_pos hdrop] at h
  cases hmk : mkRelaxedDeliveriesState q (insert q s.dropped_so_far)
      (s.fuel - dist s.current_location q) with
  | error e => rw [hmk] at h; cases h
  | ok st' =>
    rw [hmk] at h
    cases h
    unfold mkRelaxedDeliveriesState at hmk
    split at hmk
    · cases hmk
      exact ⟨rfl, rfl, rfl, rfl⟩
    · cases hmk

/-- Witness for `expand_overlap_treated_as_drop` at a concrete instance. -/
theorem expand_overlap_treated_as_drop_witness :
    (⟨2, {2}, (2 : ℚ)⟩ : RelaxedDeliveriesState ℕ).current_location = 2 ∧
    (⟨2, {2}, (2 : ℚ)⟩ : RelaxedDeliveriesState ℕ).dropped_so_far =
      insert 2 (∅ : Finset ℕ) ∧
    (⟨2, {2}, (2 : ℚ)⟩ : RelaxedDeliveriesState ℕ).fuel =
      (4 : ℚ) - natDist 0 2 ∧
    (2 : ℚ) = natDist 0 2 :=
  (expand_overlap_treated_as_drop natDist
    (⟨0, {2}, {2}, 5, ⟨0, ∅, 4⟩⟩ : RelaxedDeliveriesProblem ℕ)
    ⟨0, ∅, 4⟩ 2 (by decide) (by decide)).2 ⟨2, {2}, 2⟩ 2
    (by unfold expandCandidate mkRelaxedDeliveriesState
        norm_num [natDist])

/-! ### C10 -/

/-- C10: an undropped drop point at air distance exactly the state's fuel
(candidate fuel exactly `0`) is neither skipped (the guard only excludes
strictly negative candidate fuel) nor emitted: the successor constructor's
`fuel > 0` assertion fails, and any expansion run over an enumeration
containing that point aborts with the assertion error. -/
theorem expand_exact_fuel_assertion_failure (dist : P → P → ℚ)
    (prob : RelaxedDeliveriesProblem P) (s : RelaxedDeliveriesState P)
    (q : P) (hdrop : q ∈ prob.drop_points) (hne : q ≠ s.current_location)
    (hnd : q ∉ s.dropped_so_far)
    (hexact : dist s.current_location q = s.fuel) :
    expandCandidate dist prob s q = .fail ∧
    (∀ order, q ∈ order →
      expandStateWithCosts dist prob s order = .error "AssertionError") := by
  have hfail : expandCandidate dist prob s q = .fail := by
    unfold expandCandidate
    rw [if_neg hne, if_neg hnd, if_neg (by rw [hexact]; simp), if_pos hdrop]
    unfold mkRelaxedDeliveriesState
    rw [if_neg (by rw [hexact]; simp)]
  refine ⟨hfail, ?_⟩
  intro order horder
  induction order with
  | nil => cases horder
  | cons q' rest ih =>
    rw [List.mem_cons] at horder
    unfold expandStateWithCosts
    rcases horder with rfl | hq
    · rw [hfail]
    · cases hcand : expandCandidate dist prob s q' with
      | skip => exact ih hq
      | fail => rfl
      | emit st c => rw [ih hq]; rfl

/-- Witness for `expand_exact_fuel_assertion_failure` at a concrete
instance. -/
theorem expand_exact_fuel_assertion_failure_witness :
    expandCandidate natDist (⟨3, {1}, ∅, 5, ⟨3, ∅, 1⟩⟩ :
        RelaxedDeliveriesProblem ℕ) ⟨2, ∅, 1⟩ 1 = .fail ∧
    (∀ order, (1 : ℕ) ∈ order →
      expandStateWithCosts natDist (⟨3, {1}, ∅, 5, ⟨3, ∅, 1⟩⟩ :
          RelaxedDeliveriesProblem ℕ) ⟨2, ∅, 1⟩ order =
        .error "AssertionError") :=
  expand_exact_fuel_assertion_failure natDist
    (⟨3, {1}, ∅, 5, ⟨3, ∅, 1⟩⟩ : RelaxedDeliveriesProblem ℕ)
    ⟨2, ∅, 1⟩ 1 (by decide) (by decide) (by decide) (by decide)

/-! ### C7 -/

theorem lookupPair_eq_none {cache : List (Finset P × ℚ)} {key : Finset P} :
    lookupPair cache key = none ↔ key ∉ cache.map Prod.fst := by
  induction cache with
  | nil => simp [lookupPair]
  | cons e rest ih =>
    rcases e with ⟨k, v⟩
    by_cases h : k = key
    · simp [lookupPair, h]
    · simp [lookupPair, h, ih, Ne.symm h]

theorem getDistance_preserves_nodup {dist : P → P → ℚ}
    {cache : List (Finset P × ℚ)} (hnd : (cache.map Prod.fst).Nodup)
    (p₁ p₂ : P) :
    (((getDistanceBetweenJunctions dist cache p₁ p₂).2).map Prod.fst).Nodup := by
  unfold getDistanceBetweenJunctions
  cases hl : lookupPair cache {p₁, p₂} with
  | some d => exact hnd
  | none =>
    simp only [List.map_cons]
    exact List.nodup_cons.mpr ⟨lookupPair_eq_none.mp hl, hnd⟩

theorem runCache_preserves_nodup {dist : P → P → ℚ}
    (queries : List (P × P)) (cache : List (Finset P × ℚ))
    (hnd : (cache.map Prod.fst).Nodup) :
    (((runCacheQueries dist queries cache).2).map Prod.fst).Nodup := by
  induction queries generalizing cache with
  | nil => exact hnd
  | cons pq rest ih =>
    rcases pq with ⟨p, q⟩
    exact ih _ (getDistance_preserves_nodup hnd p q)

theorem getDistance_symm (dist : P → P → ℚ)
    (hsym : ∀ a b, dist a b = dist b a)
    (cache : List (Finset P × ℚ)) (p₁ p₂ : P) :
    (getDistanceBetweenJunctions dist cache p₁ p₂).1 =
      (getDistanceBetweenJunctions dist cache p₂ p₁).1 := by
  unfold getDistanceBetweenJunctions
  rw [Finset.pair_comm p₂ p₁]
  cases lookupPair cache {p₁, p₂} with
  | some d => rfl
  | none => simp [hsym p₁ p₂]

/-- C7: on any cache reachable by a sequence of
`_get_distance_between_junctions` calls on one heuristic instance (starting
from the empty cache of `__init__`), the call for `(p₁, p₂)` returns the same
distance as the call for `(p₂, p₁)` — the `frozenset` key makes the argument
order irrelevant for hits, and the symmetric air distance makes it irrelevant
for misses — and the cache never holds two entries for the same unordered
pair. -/
theorem getDistance_symm_cache_unique (dist : P → P → ℚ)
    (hsym : ∀ a b, dist a b = dist b a) (queries : List (P × P)) (p₁ p₂ : P) :
    ((getDistanceBetweenJunctions dist
        (runCacheQueries dist queries []).2 p₁ p₂).1 =
      (getDistanceBetweenJunctions dist
        (runCacheQueries dist queries []).2 p₂ p₁).1) ∧
    (((runCacheQueries dist queries []).2.map Prod.fst).Nodup) :=
  ⟨getDistance_symm dist hsym _ p₁ p₂,
   runCache_preserves_nodup queries [] (by simp)⟩

/-- Witness for `getDistance_symm_cache_unique` at a concrete instance. -/
theorem getDistance_symm_cache_unique_witness :
    ((getDistanceBetweenJunctions natDist
        (runCacheQueries natDist [(0, 1)] []).2 1 2).1 =
      (getDistanceBetweenJunctions natDist
        (runCacheQueries natDist [(0, 1)] []).2 2 1).1) ∧
    (((runCacheQueries natDist [(0, 1)] []).2.map Prod.fst).Nodup) :=
  getDistance_symm_cache_unique natDist
    (fun a b => by unfold natDist; rw [max_comm, min_comm]) [(0, 1)] 1 2

/-! ### C3 -/

/-- C3: for any strict-problem state satisfying the relaxed sub-problem's
constructor preconditions (positive fuel; a current location that is not an
undropped drop point), `RelaxedDeliveriesHeuristic.estimate` constructs the
relaxed sub-problem mirroring the state — start point `current_location`,
the not-yet-dropped drop points, the same gas stations and capacity, and the
state's fuel as initial fuel — and returns positive infinity exactly when
the solver reports no solution for that sub-problem, and otherwise returns
the solver's reported total path cost. -/
theorem relaxedHeuristic_infinity_iff_unsolvable
    (solver : RelaxedDeliveriesProblem P → Option ℚ)
    (prob : StrictDeliveriesProblem P) (s : StrictDeliveriesState P)
    (hstart : s.current_location ∉ prob.drop_points \ s.dropped_so_far)
    (hfuel : 0 < s.fuel) :
    (relaxedDeliveriesHeuristicEstimate solver prob s = .ok .infinity ↔
      solver ⟨s.current_location, prob.drop_points \ s.dropped_so_far,
        prob.gas_stations, prob.gas_tank_capacity,
        ⟨s.current_location, ∅, s.fuel⟩⟩ = none) ∧
    (∀ c, solver ⟨s.current_location, prob.drop_points \ s.dropped_so_far,
        prob.gas_stations, prob.gas_tank_capacity,
        ⟨s.current_location, ∅, s.fuel⟩⟩ = some c →
      relaxedDeliveriesHeuristicEstimate solver prob s = .ok (.finite c)) := by
  have hsub : mkRelaxedDeliveriesProblem
      (⟨"DeliveriesProblemInput", s.current_location,
        prob.drop_points \ s.dropped_so_far, prob.gas_stations,
        prob.gas_tank_capacity, s.fuel⟩ : DeliveriesProblemInput P) =
      .ok ⟨s.current_location, prob.drop_points \ s.dropped_so_far,
        prob.gas_stations, prob.gas_tank_capacity,
        ⟨s.current_location, ∅, s.fuel⟩⟩ := by
    unfold mkRelaxedDeliveriesProblem mkRelaxedDeliveriesState
    rw [if_neg hstart, if_pos hfuel]
    rfl
  unfold relaxedDeliveriesHeuristicEstimate
  rw [hsub]
  constructor
  · cases hs : solver ⟨s.current_location,
        prob.drop_points \ s.dropped_so_far, prob.gas_stations,
        prob.gas_tank_capacity, ⟨s.current_location, ∅, s.fuel⟩⟩ with
    | none => simp [Except.map, hs]
    | some c => simp [Except.map, hs]
  · intro c hc
    rw [Except.map, hc]

/-- Witness for `relaxedHeuristic_infinity_iff_unsolvable` with a solver that
reports no solution. -/
theorem relaxedHeuristic_infinity_iff_unsolvable_witness :
    relaxedDeliveriesHeuristicEstimate (P := ℕ) (fun _ => none)
      ⟨5, ∅, ∅, 1⟩ ⟨0, ∅, 1⟩ = .ok .infinity :=
  ((relaxedHeuristic_infinity_iff_unsolvable (P := ℕ) (fun _ => none)
    ⟨5, ∅, ∅, 1⟩ ⟨0, ∅, 1⟩ (by simp) (by decide)).1).mpr rfl

/-! ### C2: connectivity lemmas -/

theorem edgeGraph_adj {E : Finset (P × P)} {x y : P} :
    (edgeGraph E).Adj x y ↔ x ≠ y ∧ ((x, y) ∈ E ∨ (y, x) ∈ E) := by
  unfold edgeGraph
  rw [SimpleGraph.fromRel_adj]

theorem subset_stepSet {E : Finset (P × P)} {R : Finset P} : R ⊆ stepSet E R :=
  Finset.subset_union_left

theorem reachSet_mono {E : Finset (P × P)} {a : P} {m n : ℕ} (h : m ≤ n) :
    reachSet E a m ⊆ reachSet E a n := by
  induction n with
  | zero => rw [Nat.le_zero.mp h]
  | succ n ih =>
    rcases Nat.lt_or_ge m (n + 1) with h' | h'
    · exact (ih (Nat.lt_succ_iff.mp h')).trans subset_stepSet
    · rw [Nat.le_antisymm h h']

theorem self_mem_reachSet {E : Finset (P × P)} {a : P} (n : ℕ) :
    a ∈ reachSet E a n :=
  reachSet_mono (Nat.zero_le n) (by simp [reachSet])

theorem mem_stepSet_of_adj {E : Finset (P × P)} {R : Finset P} {c d : P}
    (hc : c ∈ R) (h : (edgeGraph E).Adj c d) : d ∈ stepSet E R := by
  rcases (edgeGraph_adj.mp h).2 with he | he
  · exact Finset.mem_union_right _ (Finset.mem_biUnion.mpr
      ⟨(c, d), he, by simp [hc]⟩)
  · exact Finset.mem_union_right _ (Finset.mem_biUnion.mpr
      ⟨(d, c), he, by simp [hc]⟩)

theorem reachable_of_mem_reachSet {E : Finset (P × P)} {a b : P} {n : ℕ}
    (h : b ∈ reachSet E a n) : (edgeGraph E).Reachable a b := by
  induction n generalizing b with
  | zero =>
    simp only [reachSet, Finset.mem_singleton] at h
    subst h
    exact SimpleGraph.Reachable.refl _
  | succ n ih =>
    simp only [reachSet, stepSet, Finset.mem_union] at h
    rcases h with h | h
    · exact ih h
    · obtain ⟨e, heE, hb⟩ := Finset.mem_biUnion.mp h
      by_cases hcond : e.1 ∈ reachSet E a n ∨ e.2 ∈ reachSet E a n
      · rw [if_pos hcond] at hb
        simp only [Finset.mem_insert, Finset.mem_singleton] at hb
        rcases hcond with hr | hr
        · have hre : (edgeGraph E).Reachable a e.1 := ih hr
          rcases hb with rfl | rfl
          · exact hre
          · by_cases heq : e.1 = e.2
            · exact heq ▸ hre
            · exact hre.trans (SimpleGraph.Adj.reachable
                (edgeGraph_adj.mpr ⟨heq, Or.inl (by simpa using heE)⟩))
        · have hre : (edgeGraph E).Reachable a e.2 := ih hr
          rcases hb with rfl | rfl
          · by_cases heq : e.2 = e.1
            · exact heq ▸ hre
            · exact hre.trans (SimpleGraph.Adj.reachable
                (edgeGraph_adj.mpr ⟨heq, Or.inr (by simpa using heE)⟩))
          · exact hre
      · rw [if_neg hcond] at hb
        cases hb

theorem walk_mem_reachSet {E : Finset (P × P)} {a : P} :
    ∀ {c b : P} (w : (edgeGraph E).Walk c b) {m : ℕ},
      c ∈ reachSet E a m → b ∈ reachSet E a (m + w.length)
  | _, _, SimpleGraph.Walk.nil, m, hc => by simpa using hc
  | _, _, SimpleGraph.Walk.cons h w, m, hc => by
    have hd := mem_stepSet_of_adj hc h
    have := walk_mem_reachSet w (m := m + 1) hd
    simpa [SimpleGraph.Walk.length_cons, Nat.add_comm, Nat.add_assoc,
      Nat.add_left_comm] using this

theorem walk_support_subset {E : Finset (P × P)} {S : Finset P}
    (hE : E ⊆ S.offDiag) {u v : P} (w : (edgeGraph E).Walk u v) :
    u ∈ S → ∀ x ∈ w.support, x ∈ S := by
  induction w with
  | nil =>
    intro hu x hx
    simp only [SimpleGraph.Walk.support_nil, List.mem_singleton] at hx
    exact hx ▸ hu
  | @cons u' v' w' h p ih =>
    intro hu x hx
    have hnext : v' ∈ S := by
      rcases (edgeGraph_adj.mp h).2 with he | he
      · exact (Finset.mem_offDiag.mp (hE he)).2.1
      · exact (Finset.mem_offDiag.mp (hE he)).1
    simp only [SimpleGraph.Walk.support_cons, List.mem_cons] at hx
    rcases hx with rfl | hx
    · exact hu
    · exact ih hnext x hx

theorem mem_reachSet_of_reachable {E : Finset (P × P)} {S : Finset P}
    {a b : P} (hE : E ⊆ S.offDiag) (ha : a ∈ S)
    (hr : (edgeGraph E).Reachable a b) : b ∈ reachSet E a S.card := by
  obtain ⟨w⟩ := hr
  have hpath := w.bypass_isPath
  have hsupp : ∀ x ∈ w.bypass.support, x ∈ S :=
    walk_support_subset hE w.bypass ha
  have hlen : w.bypass.length + 1 ≤ S.card := by
    have hnd : w.bypass.support.Nodup := hpath.support_nodup
    have hcard : w.bypass.support.toFinset.card = w.bypass.support.length :=
      List.toFinset_card_of_nodup hnd
    have hsub : w.bypass.support.toFinset ⊆ S := by
      intro x hx
      exact hsupp x (List.mem_toFinset.mp hx)
    have := Finset.card_le_card hsub
    rw [hcard, SimpleGraph.Walk.length_support] at this
    exact this
  have hb := walk_mem_reachSet (a := a) w.bypass (m := 0)
    (self_mem_reachSet 0)
  have hb' : b ∈ reachSet E a w.bypass.length := by simpa using hb
  exact reachSet_mono (by omega) hb'

/-- `connects` (the `S.card`-round closure computation) agrees with
graph-theoretic connectivity for edge sets over `S`. -/
theorem connects_iff_reachable {E : Finset (P × P)} {S : Finset P}
    (hE : E ⊆ S.offDiag) :
    connects E S ↔ ∀ a ∈ S, ∀ b ∈ S, (edgeGraph E).Reachable a b := by
  constructor
  · intro h a ha b hb
    exact reachable_of_mem_reachSet (h a ha b hb)
  · intro h a ha b hb
    exact mem_reachSet_of_reachable hE ha (h a ha b hb)

/-! ### C2: weight lemmas -/

theorem sym2Weight_mk {dist : P → P → ℚ} (hsym : ∀ a b, dist a b = dist b a)
    (x y : P) : sym2Weight dist s(x, y) = dist x y := by
  unfold sym2Weight
  rw [Sym2.lift_mk]
  show (dist x y + dist y x) / 2 = dist x y
  rw [hsym y x]
  ring

theorem sym2Weight_nonneg {dist : P → P → ℚ}
    (hnonneg : ∀ a b, 0 ≤ dist a b) (e : Sym2 P) : 0 ≤ sym2Weight dist e := by
  induction e using Sym2.ind with
  | _ x y =>
    unfold sym2Weight
    rw [Sym2.lift_mk]
    have h₁ := hnonneg x y
    have h₂ := hnonneg y x
    positivity

theorem dist_le_walk_weight {E : Finset (P × P)} {dist : P → P → ℚ}
    (hsym : ∀ a b, dist a b = dist b a)
    (htri : ∀ a b c, dist a c ≤ dist a b + dist b c)
    (hself : ∀ x, dist x x = 0)
    {u v : P} (w : (edgeGraph E).Walk u v) :
    dist u v ≤ (w.edges.map (sym2Weight dist)).sum := by
  induction w with
  | nil => simp [hself]
  | @cons u' v' w' h p ih =>
    rw [SimpleGraph.Walk.edges_cons, List.map_cons, List.sum_cons]
    calc dist u' w' ≤ dist u' v' + dist v' w' := htri u' v' w'
      _ ≤ sym2Weight dist s(u', v') + (p.edges.map (sym2Weight dist)).sum := by
          rw [sym2Weight_mk hsym]
          exact add_le_add_left ih _

theorem edge_mem_image {E : Finset (P × P)} {e : Sym2 P}
    (he : e ∈ (edgeGraph E).edgeSet) :
    e ∈ E.image (fun x => s(x.1, x.2)) := by
  induction e using Sym2.ind with
  | _ x y =>
    rw [SimpleGraph.mem_edgeSet] at he
    rcases (edgeGraph_adj.mp he).2 with h | h
    · exact Finset.mem_image.mpr ⟨(x, y), h, rfl⟩
    · exact Finset.mem_image.mpr ⟨(y, x), h, Sym2.eq_swap⟩

theorem sum_image_le_sum {w : Sym2 P → ℚ} (hw : ∀ e, 0 ≤ w e)
    (E : Finset (P × P)) :
    Finset.sum (E.image (fun x => s(x.1, x.2))) w ≤
      Finset.sum E (fun x => w s(x.1, x.2)) := by
  induction E using Finset.induction with
  | empty => simp
  | @insert a E' ha ih =>
    rw [Finset.image_insert, Finset.sum_insert ha]
    by_cases hmem : s(a.1, a.2) ∈ E'.image (fun x => s(x.1, x.2))
    · rw [Finset.insert_eq_self.mpr hmem]
      exact ih.trans (le_add_of_nonneg_left (hw _))
    · rw [Finset.sum_insert hmem]
      exact add_le_add_left ih _

theorem walk_weight_le_edgesWeight {E : Finset (P × P)} {dist : P → P → ℚ}
    (hsym : ∀ a b, dist a b = dist b a) (hnonneg : ∀ a b, 0 ≤ dist a b)
    {u v : P} (p : (edgeGraph E).Walk u v) (hpath : p.IsPath) :
    (p.edges.map (sym2Weight dist)).sum ≤ edgesWeight dist E := by
  have hnd : p.edges.Nodup :=
    SimpleGraph.Walk.edges_nodup_of_support_nodup hpath.support_nodup
  rw [← List.sum_toFinset _ hnd]
  have hsub : p.edges.toFinset ⊆ E.image (fun x => s(x.1, x.2)) := by
    intro e he
    exact edge_mem_image (p.edges_subset_edgeSet (List.mem_toFinset.mp he))
  calc p.edges.toFinset.sum (sym2Weight dist)
      ≤ (E.image fun x => s(x.1, x.2)).sum (sym2Weight dist) :=
        Finset.sum_le_sum_of_subset_of_nonneg hsub
          (fun i _ _ => sym2Weight_nonneg hnonneg i)
    _ ≤ E.sum (fun x => sym2Weight dist s(x.1, x.2)) :=
        sum_image_le_sum (sym2Weight_nonneg hnonneg) E
    _ = edgesWeight dist E :=
        Finset.sum_congr rfl (fun x _ => by rw [sym2Weight_mk hsym])

theorem dist_le_edgesWeight_of_connects {dist : P → P → ℚ}
    {E : Finset (P × P)} {S : Finset P} {a b : P}
    (hsym : ∀ a b, dist a b = dist b a) (hnonneg : ∀ a b, 0 ≤ dist a b)
    (htri : ∀ a b c, dist a c ≤ dist a b + dist b c)
    (hself : ∀ x, dist x x = 0)
    (hE : E ⊆ S.offDiag) (hconn : connects E S) (ha : a ∈ S) (hb : b ∈ S) :
    dist a b ≤ edgesWeight dist E := by
  obtain ⟨w⟩ := reachable_of_mem_reachSet (hconn a ha b hb)
  calc dist a b ≤ (w.bypass.edges.map (sym2Weight dist)).sum :=
        dist_le_walk_weight hsym htri hself w.bypass
    _ ≤ edgesWeight dist E :=
        walk_weight_le_edgesWeight hsym hnonneg w.bypass w.bypass_isPath

theorem star_mem_spanningEdgeSets {S : Finset P} {loc : P} (hloc : loc ∈ S) :
    (S.erase loc).image (fun p => (loc, p)) ∈ spanningEdgeSets S := by
  have hsub : (S.erase loc).image (fun p => (loc, p)) ⊆ S.offDiag := by
    intro e he
    obtain ⟨p, hp, rfl⟩ := Finset.mem_image.mp he
    exact Finset.mem_offDiag.mpr ⟨hloc, Finset.mem_of_mem_erase hp,
      (Finset.ne_of_mem_erase hp).symm⟩
  have hcard : ((S.erase loc).image (fun p => (loc, p))).card + 1 = S.card := by
    rw [Finset.card_image_of_injective _ (fun x y hxy => by simpa using hxy),
      Finset.card_erase_of_mem hloc]
    have hpos : 0 < S.card := Finset.card_pos.mpr ⟨loc, hloc⟩
    omega
  have hconn : connects ((S.erase loc).image (fun p => (loc, p))) S := by
    rw [connects_iff_reachable hsub]
    have hstep : ∀ c ∈ S,
        (edgeGraph ((S.erase loc).image (fun p => (loc, p)))).Reachable
          loc c := by
      intro c hc
      by_cases hceq : c = loc
      · subst hceq
        exact SimpleGraph.Reachable.refl _
      · exact SimpleGraph.Adj.reachable (edgeGraph_adj.mpr
          ⟨Ne.symm hceq, Or.inl (Finset.mem_image.mpr
            ⟨c, Finset.mem_erase.mpr ⟨hceq, hc⟩, rfl⟩)⟩)
    intro a ha b hb
    exact ((hstep a ha).symm).trans (hstep b hb)
  exact Finset.mem_filter.mpr ⟨Finset.mem_powerset.mpr hsub, hcard, hconn⟩

theorem le_mstWeight {x : ℚ} {dist : P → P → ℚ} {S : Finset P}
    (hne : (spanningEdgeSets (P := P) S).Nonempty)
    (hall : ∀ E ∈ spanningEdgeSets S, x ≤ edgesWeight dist E) :
    x ≤ mstWeight dist S := by
  unfold mstWeight
  have hne' : ((spanningEdgeSets S).image (edgesWeight dist)).Nonempty :=
    hne.image _
  rw [← Finset.coe_min' hne', WithTop.untop'_coe]
  obtain ⟨E, hE, hEw⟩ := Finset.mem_image.mp (Finset.min'_mem _ hne')
  rw [← hEw]
  exact hall E hE

/-! ### C2: the dominance theorem -/

/-- C2: for every state, under the air-distance metric's guarantees
(symmetry, nonnegativity, the triangle inequality, and zero self-distance),
`MaxAirDistHeuristic.estimate` is at most `MSTAirDistHeuristic.estimate`,
the minimum-spanning-tree weight over the still-waiting drop points together
with the state's current location: any spanning tree connects the current
location to each waiting drop point, and that path's weight is at least the
direct air distance. -/
theorem maxAirDist_le_mstAirDist (dist : P → P → ℚ)
    (prob : RelaxedDeliveriesProblem P) (s : RelaxedDeliveriesState P)
    (hsym : ∀ a b, dist a b = dist b a)
    (hnonneg : ∀ a b, 0 ≤ dist a b)
    (htri : ∀ a b c, dist a c ≤ dist a b + dist b c)
    (hself : ∀ a, dist a a = 0) :
    maxAirDistEstimate dist prob s ≤ mstAirDistEstimate dist prob s := by
  unfold maxAirDistEstimate mstAirDistEstimate
  have hloc : s.current_location ∈
      insert s.current_location (prob.drop_points \ s.dropped_so_far) :=
    Finset.mem_insert_self _ _
  apply le_mstWeight ⟨_, star_mem_spanningEdgeSets hloc⟩
  intro E hE
  obtain ⟨hpow, hcard, hconn⟩ := Finset.mem_filter.mp hE
  rw [Finset.fold_max_le]
  refine ⟨Finset.sum_nonneg (fun e _ => hnonneg _ _), ?_⟩
  intro p hp
  rw [hsym p s.current_location]
  exact dist_le_edgesWeight_of_connects hsym hnonneg htri hself
    (Finset.mem_powerset.mp hpow) hconn hloc (Finset.mem_insert_of_mem hp)

theorem natDist_eq_abs (a b : ℕ) : natDist a b = |(a : ℚ) - b| := by
  unfold natDist
  rcases le_total a b with h | h
  · rw [max_eq_right h, min_eq_left h, Nat.cast_sub h, abs_sub_comm,
      abs_of_nonneg (sub_nonneg.mpr (by exact_mod_cast h))]
  · rw [max_eq_left h, min_eq_right h, Nat.cast_sub h,
      abs_of_nonneg (sub_nonneg.mpr (by exact_mod_cast h))]

/-- Witness for `maxAirDist_le_mstAirDist` at a concrete instance. -/
theorem maxAirDist_le_mstAirDist_witness :
    maxAirDistEstimate natDist (⟨0, {2}, {3}, 5, ⟨0, ∅, 4⟩⟩ :
        RelaxedDeliveriesProblem ℕ) ⟨0, ∅, 4⟩ ≤
      mstAirDistEstimate natDist (⟨0, {2}, {3}, 5, ⟨0, ∅, 4⟩⟩ :
        RelaxedDeliveriesProblem ℕ) ⟨0, ∅, 4⟩ :=
  maxAirDist_le_mstAirDist natDist
    (⟨0, {2}, {3}, 5, ⟨0, ∅, 4⟩⟩ : RelaxedDeliveriesProblem ℕ) ⟨0, ∅, 4⟩
    (fun a b => by unfold natDist; rw [max_comm, min_comm])
    (fun a b => Nat.cast_nonneg _)
    (fun a b c => by
      rw [natDist_eq_abs, natDist_eq_abs, natDist_eq_abs]
      exact abs_sub_le _ _ _)
    (fun a => by rw [natDist_eq_abs]; simp)

end AiIntroHW1
